import Mathlib

/-!
# Verification of the rustdb storage engine against its specification

Shallow embedding of the rustdb sources (pager, B+tree node operations,
table insert/find/cursor, interval algebra, WHERE-expression extractor and
filtering cursor) together with theorems settling the frozen claims.

Machine integers (`usize`) are modelled as `Nat`: every quantity involved
(page numbers, cell counts, keys) is far below `2^64` in all reachable
states considered here, and the Rust code performs no wrapping arithmetic
on them.  Record payloads are opaque byte strings that the B+tree copies
around without inspecting; they are modelled by an abstract value type
`Val := Nat`.  The interval algebra in `src/utils/range.rs` is generic over
`T: Ord`; the engine instantiates it at the primary-key domain (unsigned
integers, spec section 4.9 "Interval algebra (over the primary-key
domain)"), so it is embedded over `Nat` here.
-/

namespace RustDB

/-! ## Constants (src/pager.rs, src/table/leaf.rs, src/table/internal.rs) -/

/-- `PAGE_SIZE` (src/pager.rs). -/
def PAGE_SIZE : Nat := 1024

/-- `PAGE_HEADER_SIZE`: a one-byte node-type tag padded to 8 bytes. -/
def PAGE_HEADER_SIZE : Nat := 8

/-- `size_of::<InternalNodeHeader>()`: parent_ptr (8) + num_keys (8) + right_child (8). -/
def INTERNAL_NODE_HEADER_SIZE : Nat := 24

/-- `INTERNAL_NODE_CELL_SIZE`: key (8) + child pointer (8). -/
def INTERNAL_NODE_CELL_SIZE : Nat := 16

/-- `INTERNAL_NODE_CELL_COUNT` (src/table/internal.rs): cells per internal node. -/
def INTERNAL_NODE_CELL_COUNT : Nat :=
  (PAGE_SIZE - INTERNAL_NODE_HEADER_SIZE - PAGE_HEADER_SIZE) / INTERNAL_NODE_CELL_SIZE

/-- `size_of::<LeafNodeHeader>()`: parent_ptr (8) + num_cells (8). -/
def LEAF_NODE_HEADER_SIZE : Nat := 16

/-- `LEAF_NODE_CELL_KEY_SIZE`: the key field of a leaf cell. -/
def LEAF_NODE_CELL_KEY_SIZE : Nat := 8

/-- `LeafNodeCell::max_cells(data_size)` (src/table/leaf.rs): number of cells
that fit in a leaf page for a given aligned record size. -/
def leafMaxCells (dataSize : Nat) : Nat :=
  (PAGE_SIZE - (PAGE_HEADER_SIZE + LEAF_NODE_HEADER_SIZE)) / (LEAF_NODE_CELL_KEY_SIZE + dataSize)

/-- `LeafNodeHeader::split_count(max_leaf_cells)` (src/table/leaf.rs):
`max_leaf_cells.div_ceil(2)`, the number of cells retained by the left leaf. -/
def splitCount (maxLeafCells : Nat) : Nat := (maxLeafCells + 1) / 2

/-! ## Interval algebra (src/utils/range.rs, duplicated in src/expression.rs)

The two copies of the algebra in the repository are textually identical in
every function modelled below.  The element type is the primary-key domain
`Nat` (`usize` keys wrapped in `Literal::Uint`). -/

/-- `IntervalStart<T>` (src/utils/range.rs). -/
inductive IStart : Type
  | opn (v : Nat)
  | closed (v : Nat)
deriving DecidableEq, Repr

/-- `IntervalStart::past(&self, v)`: is `v` past this start bound? -/
def IStart.past : IStart → Nat → Bool
  | .opn o, v => o < v
  | .closed c, v => c ≤ v

/-- `IntervalStart::value`. -/
def IStart.val : IStart → Nat
  | .opn o => o
  | .closed c => c

/-- `Ord for IntervalStart` (src/utils/range.rs): `Open(x) > Closed(x)`. -/
def IStart.cmp : IStart → IStart → Ordering
  | .opn o1, .opn o2 => compare o1 o2
  | .closed c1, .closed c2 => compare c1 c2
  | .opn o, .closed c => match compare o c with | .eq => .gt | x => x
  | .closed c, .opn o => match compare c o with | .eq => .lt | x => x

/-- `std::cmp::min` over the `Ord for IntervalStart` instance
(`min(v1, v2)` returns `v2` when `v2 < v1`, else `v1`). -/
def IStart.minS (a b : IStart) : IStart := if IStart.cmp b a = .lt then b else a

/-- `std::cmp::max` over the `Ord for IntervalStart` instance. -/
def IStart.maxS (a b : IStart) : IStart := if IStart.cmp b a = .lt then a else b

/-- `IntervalEnd<T>` (src/utils/range.rs). -/
inductive IEnd : Type
  | opn (v : Nat)
  | closed (v : Nat)
deriving DecidableEq, Repr

/-- `IntervalEnd::before(&self, v)`: is `v` before this end bound? -/
def IEnd.before : IEnd → Nat → Bool
  | .opn o, v => v < o
  | .closed c, v => v ≤ c

/-- `IntervalEnd::value`. -/
def IEnd.val : IEnd → Nat
  | .opn o => o
  | .closed c => c

/-- `Ord for IntervalEnd` (src/utils/range.rs): `Closed(x) > Open(x)`. -/
def IEnd.cmp : IEnd → IEnd → Ordering
  | .opn o1, .opn o2 => compare o1 o2
  | .closed c1, .closed c2 => compare c1 c2
  | .opn o, .closed c => match compare o c with | .eq => .lt | x => x
  | .closed c, .opn o => match compare c o with | .eq => .gt | x => x

/-- `std::cmp::min` over the `Ord for IntervalEnd` instance. -/
def IEnd.minE (a b : IEnd) : IEnd := if IEnd.cmp b a = .lt then b else a

/-- `std::cmp::max` over the `Ord for IntervalEnd` instance. -/
def IEnd.maxE (a b : IEnd) : IEnd := if IEnd.cmp b a = .lt then a else b

/-- `SimpleRange<T>` (src/utils/range.rs). -/
inductive SimpleRange : Type
  | values (s : IStart) (e : IEnd)
  | value (v : Nat)
  | start (s : IStart)
  | endB (e : IEnd)
  | empty
  | full
deriving DecidableEq, Repr

/-- `SimpleRange::value_past_start` (src/utils/range.rs).  In the Rust source
the `Self::Value(v)` arm rebinds `v`, shadowing the probe argument, so
`matches!(v.cmp(v), Equal | Greater)` compares the stored value with itself;
the arm is transcribed with that reflexive comparison. -/
def SimpleRange.valuePastStart : SimpleRange → Nat → Bool
  | .values s _, v => s.past v
  | .value w, _ => match compare w w with | .eq => true | .gt => true | .lt => false
  | .start s, v => s.past v
  | .endB _, _ => true
  | .empty, _ => true
  | .full, _ => true

/-- `SimpleRange::value_before_end` (src/utils/range.rs); the `Value` arm has
the same shadowed binding as `value_past_start`. -/
def SimpleRange.valueBeforeEnd : SimpleRange → Nat → Bool
  | .values _ e, v => e.before v
  | .value w, _ => match compare w w with | .eq => true | .lt => true | .gt => false
  | .start _, _ => true
  | .endB e, v => e.before v
  | .empty, _ => true
  | .full, _ => true

/-- `SimpleRange::contains` (src/utils/range.rs). -/
def SimpleRange.contains (r : SimpleRange) (v : Nat) : Bool :=
  r.valuePastStart v && r.valueBeforeEnd v

/-- `SimpleRange::overlaps` (src/utils/range.rs). -/
def SimpleRange.overlaps : SimpleRange → SimpleRange → Bool
  | .values s e, o => o.contains s.val || o.contains e.val
  | .value v, o => o.contains v
  | .start s, o => o.valueBeforeEnd s.val
  | .endB e, o => o.valuePastStart e.val
  | .empty, _ => true
  | .full, _ => true

open IStart IEnd in
/-- `SimpleRange::union` (src/utils/range.rs); match arms in source order. -/
def SimpleRange.union : SimpleRange → SimpleRange → SimpleRange
  | .values s1 e1, .values s2 e2 => .values (minS s1 s2) (maxE e1 e2)
  | .values s1 _, .start s2 => .start (minS s1 s2)
  | .start s2, .values s1 _ => .start (minS s1 s2)
  | .values _ e1, .endB e2 => .endB (maxE e1 e2)
  | .endB e2, .values _ e1 => .endB (maxE e1 e2)
  | .values s1 e1, .value v => .values (minS s1 (.closed v)) (maxE e1 (.closed v))
  | .value v, .values s1 e1 => .values (minS s1 (.closed v)) (maxE e1 (.closed v))
  | .value v, .start s => .start (minS s (.closed v))
  | .start s, .value v => .start (minS s (.closed v))
  | .value v, .endB e => .endB (maxE e (.closed v))
  | .endB e, .value v => .endB (maxE e (.closed v))
  | .value v, .value _ => .value v
  | .start s1, .start s2 => .start (minS s1 s2)
  | .endB e1, .endB e2 => .endB (maxE e1 e2)
  | .start _, .endB _ => .full
  | .endB _, .start _ => .full
  | .full, _ => .full
  | _, .full => .full
  | .empty, o => o
  | o, .empty => o

open IStart IEnd in
/-- `SimpleRange::intersection` (src/utils/range.rs); match arms in source order. -/
def SimpleRange.inter : SimpleRange → SimpleRange → SimpleRange
  | .values s1 e1, .values s2 e2 => .values (maxS s1 s2) (minE e1 e2)
  | .values s1 e1, .start s2 => .values (maxS s1 s2) e1
  | .start s2, .values s1 e1 => .values (maxS s1 s2) e1
  | .values s1 e1, .endB e2 => .values s1 (minE e1 e2)
  | .endB e2, .values s1 e1 => .values s1 (minE e1 e2)
  | .start s1, .start s2 => .start (maxS s1 s2)
  | .endB e1, .endB e2 => .endB (minE e1 e2)
  | .start s, .endB e => .values s e
  | .endB e, .start s => .values s e
  | .full, o => o
  | o, .full => o
  | .empty, _ => .empty
  | _, .empty => .empty
  | .value v, _ => .value v
  | _, .value v => .value v

/-- `SimpleRange::start` (src/utils/range.rs): the start value, if any. -/
def SimpleRange.startVal : SimpleRange → Option Nat
  | .value v => some v
  | .values s _ => some s.val
  | .start s => some s.val
  | .endB _ => none
  | .empty => none
  | .full => none

/-! A `Range<T>` is its member list `buf` (src/utils/range.rs). -/

/-- `Range::push_union` (src/utils/range.rs): merge the incoming simple range
with every overlapping member, keep the others, append the merged result. -/
def rangePushUnion (buf : List SimpleRange) (range : SimpleRange) : List SimpleRange :=
  let p := buf.foldl
    (fun (acc : List SimpleRange × SimpleRange) r =>
      if acc.2.overlaps r then (acc.1, acc.2.union r) else (acc.1 ++ [r], acc.2))
    ([], range)
  p.1 ++ [p.2]

/-- `Range::union` (src/utils/range.rs). -/
def rangeUnion (buf other : List SimpleRange) : List SimpleRange :=
  other.foldl rangePushUnion buf

/-- `Range::push_intersection` (src/utils/range.rs). -/
def rangePushInter (buf : List SimpleRange) (range : SimpleRange) : List SimpleRange :=
  buf.map fun r => if range.overlaps r then range.inter r else r

/-- `Range::intersection` (src/utils/range.rs). -/
def rangeInter (buf other : List SimpleRange) : List SimpleRange :=
  other.foldl rangePushInter buf

/-- `Comparison` (src/expression.rs). -/
inductive Comp : Type
  | equals
  | notEquals
  | lessThanEquals
  | lessThan
  | moreThanEquals
  | moreThan
deriving DecidableEq, Repr

/-- `Comparison::pass_filter` (src/expression.rs). -/
def Comp.passFilter : Comp → Ordering → Bool
  | .equals, o => o = .eq
  | .notEquals, o => !(o = .eq)
  | .lessThanEquals, o => o = .eq || o = .lt
  | .lessThan, o => o = .lt
  | .moreThanEquals, o => o = .eq || o = .gt
  | .moreThan, o => o = .gt

/-- `Comparison::eval` (src/expression.rs): compare two literals (here both
drawn from the uint domain, where `partial_cmp` is total). -/
def Comp.evalC (c : Comp) (left right : Nat) : Bool :=
  c.passFilter (compare left right)

/-- `Range::from_comparison` (src/utils/range.rs). -/
def fromComparison : Comp → Nat → List SimpleRange
  | .equals, v => [.value v]
  | .notEquals, v => rangeUnion [.endB (.opn v)] [.start (.opn v)]
  | .moreThanEquals, v => [.start (.closed v)]
  | .moreThan, v => [.start (.opn v)]
  | .lessThanEquals, v => [.endB (.closed v)]
  | .lessThan, v => [.endB (.opn v)]

/-! ## WHERE expressions (src/expression.rs) -/

/-- `Expression` (src/expression.rs): `And`, `Or`, and `Binary { left:
identifier, right: literal, sym: comparison }`. -/
inductive Expr : Type
  | and (l r : Expr)
  | or (l r : Expr)
  | binary (left : String) (right : Nat) (sym : Comp)
deriving DecidableEq, Repr

/-- `Expression::fields` (src/expression.rs): pre-order list of identifiers. -/
def Expr.fieldsE : Expr → List String
  | .and l r => l.fieldsE ++ r.fieldsE
  | .or l r => l.fieldsE ++ r.fieldsE
  | .binary left _ _ => [left]

/-- `Expression::eval` (src/expression.rs): consume one literal from the
iterator per `Binary` leaf.  The Rust `&&`/`||` short-circuit, so a false
left conjunct (true left disjunct) leaves the right subtree's literals
unconsumed, exactly as transcribed here.  `none` models the
"Ran out of fields" error. -/
def Expr.evalE : Expr → List Nat → Option (Bool × List Nat)
  | .and l r, lits =>
    match l.evalE lits with
    | none => none
    | some (lv, lits1) => if lv then r.evalE lits1 else some (false, lits1)
  | .or l r, lits =>
    match l.evalE lits with
    | none => none
    | some (lv, lits1) => if lv then some (true, lits1) else r.evalE lits1
  | .binary _ right sym, lits =>
    match lits with
    | [] => none
    | x :: rest => some (sym.evalC x right, rest)

/-- `Expression::extract_index` (src/expression.rs, lines 101-148): strips
every `Binary` whose identifier equals `indexName`, combining child ranges
with intersection under `And` and union under `Or`; returns the residual
expression, the extracted `Range` and the removed flag ("the bool represents
if the expression is empty"). -/
def Expr.extractIndexE : Expr → String → Expr × List SimpleRange × Bool
  | .and left right, indexName =>
    let (left', l, lRemove) := left.extractIndexE indexName
    let (right', r, rRemove) := right.extractIndexE indexName
    let intersection := rangeInter l r
    if lRemove && rRemove then (.and left' right', intersection, true)
    else if lRemove then (right', intersection, false)
    else if rRemove then (left', intersection, false)
    else (.and left' right', intersection, false)
  | .or left right, indexName =>
    let (left', l, lRemove) := left.extractIndexE indexName
    let (right', r, rRemove) := right.extractIndexE indexName
    let union := rangeUnion l r
    if lRemove && rRemove then (.or left' right', union, true)
    else if lRemove then (right', union, false)
    else if rRemove then (left', union, false)
    else (.or left' right', union, false)
  | .binary left right sym, indexName =>
    if left = indexName then (.binary left right sym, fromComparison sym right, true)
    else (.binary left right sym, [.full], false)

/-! ## Node cell operations (src/table/leaf.rs, src/table/internal.rs)

A node's cell array is modelled by the list of its first `num_cells`
(`num_keys`) cells; slots past the count are never read by any code path
modelled here.  The in-place shifting loops act on one spare slot past the
count, modelled by appending a dummy slot. -/

/-- The descending shift loop in `insert_at_index`: for `i` from
`index + count - 1` down to `index`, `cell[i+1] := cell[i]`. -/
def shiftRightFrom {C : Type} (dflt : C) (a : List C) (index : Nat) : Nat → List C
  | 0 => a
  | k + 1 => shiftRightFrom dflt (a.set (index + k + 1) (a.getD (index + k) dflt)) index k

/-- `insert_at_index` (src/table/leaf.rs lines 162-172 and, identically
shaped, the interior branch of `InternalNodeHeader::insert`): shift cells in
`[index, num_cells)` right by one, write the new cell at `index`, and
increment the count (the result list is one longer). -/
def insertAtIdx {C : Type} (dflt : C) (cells : List C) (index : Nat) (c : C) : List C :=
  let slots := cells ++ [dflt]
  let slots := if index < cells.length then
    shiftRightFrom dflt slots index (cells.length - index) else slots
  slots.set index c

/-- Payloads are opaque to the B+tree; model them by an abstract value. -/
abbrev Val := Nat

/-- A leaf cell: key and payload. -/
abbrev LeafCell := Nat × Val

/-- An internal cell: key and child page. -/
abbrev InternalCell := Nat × Nat

/-- `LeafNodeHeader::find_index` (src/table/leaf.rs lines 137-153): binary
search, returning the probe index directly on an exact match, otherwise the
lower bound.  The Rust loop runs `while min_index != max_index_past_one`
starting from `0 ≤ num_cells`, so `lo ≤ hi` holds at every iteration and
the guard is equivalent to `lo < hi`; each iteration shrinks `hi - lo` by
at least one, so running the recursion on a fuel of `hi - lo` steps
reproduces the loop exactly. -/
def leafFindIndexAux (cells : List LeafCell) (key : Nat) : Nat → Nat → Nat → Nat
  | 0, lo, _ => lo
  | fuel + 1, lo, hi =>
    if lo < hi then
      let mid := (lo + hi) / 2
      let k := (cells.getD mid (0, 0)).1
      if k = key then mid
      else if key < k then leafFindIndexAux cells key fuel lo mid
      else leafFindIndexAux cells key fuel (mid + 1) hi
    else lo

/-- `LeafNodeHeader::find` = `find_index` (src/table/leaf.rs). -/
def leafFindIndex (cells : List LeafCell) (key : Nat) : Nat :=
  leafFindIndexAux cells key cells.length 0 cells.length

/-- `InternalNodeHeader::find_index` (src/table/internal.rs lines 131-149):
binary search; on an exact match, `min_index := index + 1` and break.  The
fuel bounds the iteration count as in `leafFindIndexAux`. -/
def internalFindIndexAux (keys : List Nat) (key : Nat) : Nat → Nat → Nat → Nat
  | 0, lo, _ => lo
  | fuel + 1, lo, hi =>
    if lo < hi then
      let mid := (lo + hi) / 2
      let k := keys.getD mid 0
      if k = key then mid + 1
      else if key < k then internalFindIndexAux keys key fuel lo mid
      else internalFindIndexAux keys key fuel (mid + 1) hi
    else lo

/-- `InternalNodeHeader::find_index` on a cell list. -/
def internalFindIndex (cells : List InternalCell) (key : Nat) : Nat :=
  internalFindIndexAux (cells.map Prod.fst) key cells.length 0 cells.length

/-- `InternalNodeHeader::find` (src/table/internal.rs lines 152-159). -/
def internalFind (cells : List InternalCell) (rightChild : Nat) (key : Nat) : Nat :=
  let index := internalFindIndex cells key
  if index = cells.length then rightChild else (cells.getD index (0, 0)).2

/-- `InternalNodeHeader::insert` (src/table/internal.rs lines 162-176):
interior index shifts right and writes `(key, ptr)`; index `num_keys`
pushes the old `right_child` into the last cell and makes `ptr` the new
`right_child`.  Returns the updated cells and right child. -/
def internalInsert (cells : List InternalCell) (rightChild : Nat) (key : Nat) (ptr : Nat) :
    List InternalCell × Nat :=
  let index := internalFindIndex cells key
  if index < cells.length then
    (insertAtIdx (0, 0) cells index (key, ptr), rightChild)
  else
    (cells ++ [(key, rightChild)], ptr)

/-! ## Pages, tables and the B+tree (src/table.rs, src/pager.rs)

A page is either a leaf node or an internal node (page 0 is the reserved
metadata page and never resolved as a node; unused or not-yet-initialised
slots are `none`).  A parent pointer of `0` (`PageNum::NULL`) marks the
root. -/

/-- A B+tree node (src/table/node.rs). -/
inductive Node : Type
  | leaf (parent : Nat) (cells : List LeafCell)
  | internal (parent : Nat) (cells : List InternalCell) (rightChild : Nat)
deriving DecidableEq, Repr

/-- The in-memory table: the pager's page slots, the root page number from
the metadata, and `max_leaf_cells` computed at open time. -/
structure TableState : Type where
  pages : List (Option Node)
  root : Nat
  maxLeafCells : Nat
deriving DecidableEq, Repr

/-- A cursor (src/table.rs): a `(page_num, cell_num)` pair. -/
structure Cursor : Type where
  page : Nat
  cell : Nat
deriving DecidableEq, Repr

/-- `Pager::get_node` resolved through `get_page` + `PageHeader::node_mut`
(src/pager.rs lines 393-409): fetch a page and view it as a typed node. -/
def getNode (t : TableState) (n : Nat) : Except String Node :=
  match t.pages.getD n none with
  | some nd => .ok nd
  | none => .error "Failed to get page"

/-- Resolve a page as a leaf, as `Cursor::leaf` does (panic text from
src/table.rs). -/
def getLeaf (t : TableState) (n : Nat) : Except String (Nat × List LeafCell) :=
  match getNode t n with
  | .ok (.leaf parent cells) => .ok (parent, cells)
  | .ok (.internal _ _ _) => .error "A cursor has to point to a leaf"
  | .error e => .error e

/-- Resolve a page as an internal node (panic text from src/table.rs). -/
def getInternal (t : TableState) (n : Nat) :
    Except String (Nat × List InternalCell × Nat) :=
  match getNode t n with
  | .ok (.internal parent cells right) => .ok (parent, cells, right)
  | .ok (.leaf _ _) => .error "Parent can't be leaf node"
  | .error e => .error e

/-- Overwrite a page slot. -/
def setPage (t : TableState) (n : Nat) (nd : Node) : TableState :=
  { t with pages := t.pages.set n (some nd) }

/-- `Pager::get_free_page` (src/pager.rs lines 467-471): the next unused
page number (the cache length for a freshly created table), materialised
zeroed; it is always initialised as a node right after. -/
def allocPage (t : TableState) : TableState × Nat :=
  ({ t with pages := t.pages ++ [none] }, t.pages.length)

/-- `Table::find_cursor` (src/table.rs lines 172-183); the descent is
fuelled, enough fuel being supplied for every acyclic page graph. -/
def findCursorAux (t : TableState) (key : Nat) : Nat → Nat → Except String Cursor
  | 0, _ => .error "page loop"
  | fuel + 1, p =>
    match getNode t p with
    | .error e => .error e
    | .ok (.internal _ cells right) => findCursorAux t key fuel (internalFind cells right key)
    | .ok (.leaf _ cells) => .ok ⟨p, leafFindIndex cells key⟩

/-- `Table::find_cursor` from the root. -/
def findCursor (t : TableState) (key : Nat) : Except String Cursor :=
  findCursorAux t key (t.pages.length + 1) t.root

/-- `Table::find` (src/table.rs lines 160-168). -/
def findVal (t : TableState) (key : Nat) : Except String Val := do
  let cur ← findCursor t key
  let (_, cells) ← getLeaf t cur.page
  if cur.cell < cells.length && (cells.getD cur.cell (0, 0)).1 == key then
    .ok (cells.getD cur.cell (0, 0)).2
  else
    .error "Key not found"

/-- The pure cell computation of `Table::split_leaf_and_insert`
(src/table.rs lines 212-252): the left (original) leaf keeps
`split_count` cells, the new right leaf receives the rest, and the new
record goes into the half its cursor index falls in (`insert_at_index` on
the left at the cursor's index, `LeafNodeHeader::insert` on the right).
Returns (left cells, right cells, new record went left, cell index in the
right leaf when it went right). -/
def leafSplit (cells : List LeafCell) (cellNum : Nat) (key : Nat) (v : Val)
    (maxCells : Nat) : List LeafCell × List LeafCell × Bool × Nat :=
  let sc := splitCount maxCells
  let left0 := cells.take sc
  let right0 := cells.drop sc
  if cellNum < sc then
    (insertAtIdx (0, 0) left0 cellNum (key, v), right0, true, cellNum)
  else
    let i := leafFindIndex right0 key
    (left0, insertAtIdx (0, 0) right0 i (key, v), false, i)

/-- `Table::split_leaf_and_insert` (src/table.rs lines 212-252) on the
table state: allocate the right leaf, split the cells, reparent both
leaves to `parent`, move the cursor when the record went right, and return
the right leaf's page and its first key (the split key). -/
def splitLeafAndInsert (t : TableState) (cur : Cursor) (key : Nat) (v : Val)
    (parent : Nat) (maxCells : Nat) :
    Except String (TableState × Cursor × Nat × Nat) := do
  let (_, cells) ← getLeaf t cur.page
  let (t, newLeafPage) := allocPage t
  let (leftCells, rightCells, inLeft, rightIdx) := leafSplit cells cur.cell key v maxCells
  let t := setPage t cur.page (.leaf parent leftCells)
  let t := setPage t newLeafPage (.leaf parent rightCells)
  let cur := if inLeft then cur else ⟨newLeafPage, rightIdx⟩
  let splitKey := (rightCells.headD (0, 0)).1
  .ok (t, cur, newLeafPage, splitKey)

/-- `Table::split_root_leaf_and_insert` (src/table.rs lines 254-281):
allocate the new internal root first, point the table's root at it, split
the old root leaf under it, then initialise the new root with
`cell[0] = (split_key, old_leaf)` and `right_child = new_leaf`. -/
def splitRootLeafAndInsert (t : TableState) (cur : Cursor) (key : Nat) (v : Val) :
    Except String TableState := do
  let oldLeafPage := cur.page
  let (t, newInternalPage) := allocPage t
  let t := { t with root := newInternalPage }
  let (t, _, newLeafPage, splitKey) ←
    splitLeafAndInsert t cur key v newInternalPage t.maxLeafCells
  .ok (setPage t newInternalPage (.internal 0 [(splitKey, oldLeafPage)] newLeafPage))

/-- Reparent the node on `page` to `newParent`, as the
`match node { Internal → parent_ptr = .., Leaf → parent_ptr = .. }` blocks
of `Table::split_internal_and_insert` do. -/
def setParent (t : TableState) (page : Nat) (newParent : Nat) :
    Except String TableState := do
  match ← getNode t page with
  | .leaf _ cells => .ok (setPage t page (.leaf newParent cells))
  | .internal _ cells right => .ok (setPage t page (.internal newParent cells right))

/-- `Table::split_internal_and_insert` (src/table.rs lines 349-406):
allocate the right internal node; move cells `[SPLIT_COUNT, max)` into it,
reparenting their children; take over and reparent the old right child;
promote `cell[SPLIT_COUNT-1]` (its key leaves the left node, its child
becomes the left node's right child); then insert `(key, ptr)` into the
half holding its range, reparenting `ptr` when it goes right. -/
def splitInternalAndInsert (t : TableState) (internalPage : Nat) (key : Nat)
    (ptr : Nat) (parent : Nat) : Except String (TableState × Nat × Nat) := do
  let (_, cells, right) ← getInternal t internalPage
  let (t, newInternalPage) := allocPage t
  let index := internalFindIndex cells key
  let sc := (INTERNAL_NODE_CELL_COUNT + 1) / 2
  let movedCells := cells.drop sc
  let t ← movedCells.foldlM (fun t c => setParent t c.2 newInternalPage) t
  let t ← setParent t right newInternalPage
  let lastCell := cells.getD (sc - 1) (0, 0)
  let splitKey := lastCell.1
  let leftCells := cells.take (sc - 1)
  let leftRight := lastCell.2
  if index < sc then
    let (lc, lr) := internalInsert leftCells leftRight key ptr
    let t := setPage t internalPage (.internal parent lc lr)
    let t := setPage t newInternalPage (.internal parent movedCells right)
    .ok (t, newInternalPage, splitKey)
  else
    let (nc, nr) := internalInsert movedCells right key ptr
    let t := setPage t internalPage (.internal parent leftCells leftRight)
    let t := setPage t newInternalPage (.internal parent nc nr)
    let t ← setParent t ptr newInternalPage
    .ok (t, newInternalPage, splitKey)

/-- `Table::split_nonroot_leaf_and_insert` (src/table.rs lines 283-343). -/
def splitNonrootLeafAndInsert (t : TableState) (cur : Cursor) (key : Nat) (v : Val) :
    Except String TableState := do
  let (parentPage, _) ← getLeaf t cur.page
  let (pparent, pcells, _) ← getInternal t parentPage
  if pcells.length = INTERNAL_NODE_CELL_COUNT then
    if pparent = 0 then
      let (t, _, newLeafPage, leafSplitKey) ←
        splitLeafAndInsert t cur key v parentPage t.maxLeafCells
      let (t, newRootPage) := allocPage t
      let (t, newInternalPage, internalSplitKey) ←
        splitInternalAndInsert t parentPage leafSplitKey newLeafPage newRootPage
      let t := setPage t newRootPage
        (.internal 0 [(internalSplitKey, parentPage)] newInternalPage)
      .ok { t with root := newRootPage }
    else
      .error "Don't know how to recursively insert to internal"
  else
    let (t, _, newLeafPage, splitKey) ←
      splitLeafAndInsert t cur key v parentPage t.maxLeafCells
    let (pp, pc, pr) ← getInternal t parentPage
    let (nc, nr) := internalInsert pc pr splitKey newLeafPage
    .ok (setPage t parentPage (.internal pp nc nr))

/-- `Table::insert` (src/table.rs lines 186-207). -/
def insertT (t : TableState) (key : Nat) (v : Val) : Except String TableState := do
  let cur ← findCursor t key
  let (leafParent, cells) ← getLeaf t cur.page
  if cur.cell < cells.length && (cells.getD cur.cell (0, 0)).1 == key then
    .error "Duplicate key"
  else if cells.length = t.maxLeafCells then
    if leafParent = 0 then splitRootLeafAndInsert t cur key v
    else splitNonrootLeafAndInsert t cur key v
  else
    .ok (setPage t cur.page (.leaf leafParent (insertAtIdx (0, 0) cells cur.cell (key, v))))

/-- A freshly created table (src/pager.rs `Pager::new` on an empty file):
page 0 is the metadata page, page 1 the empty root leaf. -/
def freshTable (maxLeafCells : Nat) : TableState :=
  { pages := [none, some (.leaf 0 [])], root := 1, maxLeafCells := maxLeafCells }

/-- Insert a list of (key, value) pairs in order. -/
def insertAll (t : TableState) (kvs : List (Nat × Val)) : Except String TableState :=
  kvs.foldlM (fun t kv => insertT t kv.1 kv.2) t

/-! ## Cursor traversal (src/table.rs `Cursor::advance`) -/

/-- `Table::leftmost_node` (src/table.rs lines 150-157), fuelled. -/
def leftmostNode (t : TableState) : Nat → Nat → Except String Nat
  | 0, _ => .error "page loop"
  | fuel + 1, p =>
    match getNode t p with
    | .error e => .error e
    | .ok (.internal _ cells _) => leftmostNode t fuel (cells.getD 0 (0, 0)).2
    | .ok (.leaf _ _) => .ok p

/-- Modelled from the spec: `InternalNodeHeader::ptr(i)` is called by
`Cursor::advance` (src/table.rs line 84) but its definition is not in the
sources; spec section 4.8 descends into "`parent.cell[i+1].child` (the next
sibling subtree)", whose child at position `num_keys` is `right_child`
(section 4.4 `find`), so `ptr(i)` resolves cell `i`'s child and
`right_child` at `i = num_keys`. -/
def internalPtr (cells : List InternalCell) (rightChild : Nat) (i : Nat) : Nat :=
  if i = cells.length then rightChild else (cells.getD i (0, 0)).2

/-- The walk-up loop of `Cursor::advance` (src/table.rs lines 76-95). -/
def advanceLoop (t : TableState) (cur : Cursor) :
    Nat → Nat → Nat → Except String (Bool × Cursor)
  | 0, _, _ => .error "page loop"
  | fuel + 1, lastKey, parentPtr => do
    let (pparent, pcells, pright) ← getInternal t parentPtr
    let index := internalFindIndex pcells lastKey
    if index < pcells.length then
      let nextInternal := internalPtr pcells pright (index + 1)
      let page ← leftmostNode t (t.pages.length + 1) nextInternal
      .ok (true, ⟨page, 0⟩)
    else if pparent = 0 then
      .ok (false, cur)
    else
      advanceLoop t cur fuel (pcells.getD 0 (0, 0)).1 pparent

/-- `Cursor::advance` (src/table.rs lines 62-96): `true` while the cursor
remains valid. -/
def advance (t : TableState) (cur : Cursor) : Except String (Bool × Cursor) := do
  let (leafParent, cells) ← getLeaf t cur.page
  let cellNum := cur.cell + 1
  if cellNum < cells.length then
    .ok (true, ⟨cur.page, cellNum⟩)
  else if leafParent = 0 then
    .ok (false, ⟨cur.page, cellNum⟩)
  else
    let lastKey := (cells.getD 0 (0, 0)).1
    advanceLoop t ⟨cur.page, cellNum⟩ (t.pages.length + 1) lastKey leafParent

/-- Collect the keys visited from a cursor position onwards, reading the
current cell and advancing until `advance` signals the end (the loop of
`test_advancing_cursor` in tests/table.rs). -/
def scanFrom (t : TableState) : Nat → Cursor → Except String (List Nat)
  | 0, _ => .error "scan fuel"
  | fuel + 1, cur => do
    let (_, cells) ← getLeaf t cur.page
    let k := (cells.getD cur.cell (0, 0)).1
    let (cont, cur') ← advance t cur
    if cont then
      let rest ← scanFrom t fuel cur'
      .ok (k :: rest)
    else
      .ok [k]

/-- A full forward scan: `find_cursor(0)` then advance to the end. -/
def scanTable (t : TableState) (fuel : Nat) : Except String (List Nat) := do
  let cur ← findCursor t 0
  scanFrom t fuel cur

/-! ## The filtering cursor (src/db.rs `FilteringCursor`) -/

/-- Membership of a key in a `Range` read as the disjunction of its
members (spec section 4.9), via the code's `SimpleRange::contains`. -/
def rangeContains (buf : List SimpleRange) (k : Nat) : Bool :=
  buf.any fun r => r.contains k

/-- Evaluate an expression on a row: build the iterator of field literals
in `fields()` order, resolving each identifier through the row, and run
`Expression::eval` (src/db.rs `evaluate_entry`).  `none` models a panic. -/
def evalOnRow (e : Expr) (row : String → Nat) : Option Bool :=
  (e.evalE (e.fieldsE.map row)).map Prod.fst

/-- The rows visited by `cursor.into_iter(table)` from a cursor position:
the row under the cursor and every following row in cursor order.
Modelled from the spec: the cursor iterator itself is not in the sources
(src/db.rs line 285 calls it); spec section 4.11 "Iterate forward via
cursor advance". -/
def rowsFrom (t : TableState) : Nat → Cursor → Except String (List LeafCell)
  | 0, _ => .error "scan fuel"
  | fuel + 1, cur => do
    let (_, cells) ← getLeaf t cur.page
    let here := if cur.cell < cells.length then [cells.getD cur.cell (0, 0)] else []
    let (cont, cur') ← advance t cur
    if cont then
      let rest ← rowsFrom t fuel cur'
      .ok (here ++ rest)
    else
      .ok here

/-- `Table::min_cursor` — called by src/db.rs line 281 but absent from the
sources.  Modelled from the spec: section 4.11, "if it has no start (Full
or End(..)), start at the leftmost leaf". -/
def minCursor (t : TableState) : Except String Cursor := do
  let p ← leftmostNode t (t.pages.length + 1) t.root
  .ok ⟨p, 0⟩

/-- `FilteringCursor::iter` (src/db.rs lines 275-293): for each simple
range of the extracted `Range`, seek with `find_cursor` at the range's
start value (or the leftmost leaf), skip while the key is not past the
start bound, take while it is before the end bound, keep rows on which the
residual evaluates to true, then apply SKIP and LIMIT.  `resolve` maps a
field identifier to its literal on a row (the primary field resolves to
the cell key).  When extraction removed the whole expression the residual
check is vacuously true (spec section 4.10: the neutral `Empty` residual
"must define Empty → true"). -/
def filterRun (t : TableState) (pred : Expr) (indexName : String)
    (resolve : String → Nat → Val → Nat) (skip limit : Nat) (fuel : Nat) :
    Except String (List LeafCell) := do
  let (resid, ranges, removed) := pred.extractIndexE indexName
  let evalEntry : LeafCell → Bool := fun kv =>
    if removed then true
    else ((resid.evalE (resid.fieldsE.map fun f => resolve f kv.1 kv.2)).map Prod.fst)
      = some true
  let rowsFor : SimpleRange → Except String (List LeafCell) := fun r => do
    let cur ← match r.startVal with
      | some v => findCursor t v
      | none => minCursor t
    let rows ← rowsFrom t fuel cur
    let rows := (rows.dropWhile fun kv => !(r.valuePastStart kv.1)).takeWhile
      fun kv => r.valueBeforeEnd kv.1
    .ok (rows.filter evalEntry)
  let all ← ranges.foldlM (fun acc r => do .ok (acc ++ (← rowsFor r))) []
  .ok ((all.drop skip).take limit)

/-- The extractor-correctness equation of spec section 8, property 9, as a
proposition about one predicate, one row and one primary-field name:
evaluating `P` on the row coincides with the extracted range containing
the row's primary key and the residual holding on the row. -/
def extractorClaim (e : Expr) (p : String) (row : String → Nat) : Prop :=
  evalOnRow e row =
    some ((rangeContains (e.extractIndexE p).2.1 (row p)) &&
      (if (e.extractIndexE p).2.2 then true
       else (evalOnRow (e.extractIndexE p).1 row).getD false))

/-! ## The pager and its backing file (src/pager.rs `Pager::flush`)

For the flush claims the page payloads are opaque (`PageC := Nat`); the
backing file is its byte length plus the page-aligned contents that have
been written, and `write_all_at` extends the file as needed. -/

/-- Opaque page contents. -/
abbrev PageC := Nat

/-- The backing data file: byte length, page-slot contents (most recent
write first), and whether `sync_data` has run since the last write. -/
structure DiskFile : Type where
  len : Nat
  data : List (Nat × PageC)
  synced : Bool
deriving DecidableEq, Repr

/-- Read the page stored at slot `i`. -/
def DiskFile.readPage (f : DiskFile) (i : Nat) : Option PageC :=
  (f.data.find? fun e => e.1 == i).map Prod.snd

/-- `File::set_len(n)`: truncate or extend to `n` bytes; pages no longer
fully covered are lost. -/
def DiskFile.setLen (f : DiskFile) (n : Nat) : DiskFile :=
  { f with len := n, data := f.data.filter fun e => (e.1 + 1) * PAGE_SIZE ≤ n }

/-- `write_all_at(page, i * PAGE_SIZE)`: store the page at slot `i`,
extending the file when the write ends past the current length. -/
def DiskFile.writePageAt (f : DiskFile) (i : Nat) (p : PageC) : DiskFile :=
  { len := max f.len ((i + 1) * PAGE_SIZE),
    data := (i, p) :: f.data.filter fun e => !(e.1 == i),
    synced := false }

/-- The pager state relevant to `flush`: `num_pages` computed from the
file length at open time, the sparse page cache, and the owned file. -/
structure PagerState : Type where
  numPages : Nat
  cache : List (Option PageC)
  file : DiskFile
deriving DecidableEq, Repr

/-- The `biggest_page_index` computation of `Pager::flush` (src/pager.rs
lines 474-482): the highest cache slot holding a materialised page. -/
def biggestMaterialised (cache : List (Option PageC)) : Option Nat :=
  (List.range cache.length).reverse.find? fun i => (cache.getD i none).isSome

/-- The write loop of `Pager::flush`: write every cached page among the
slots `idxs` at its offset. -/
def writeLoop (cache : List (Option PageC)) (f : DiskFile) (idxs : List Nat) : DiskFile :=
  idxs.foldl
    (fun f i =>
      match cache.getD i none with
      | some p => f.writePageAt i p
      | none => f)
    f

/-- `Pager::flush` (src/pager.rs lines 473-496): find the highest
materialised page index (panicking when the cache is empty), call
`set_len((biggest - num_pages + 1) * PAGE_SIZE)` when `biggest ≥
num_pages`, write every cached page in `0..=biggest` at its offset, and
`sync_data`. -/
def pagerFlush (st : PagerState) : Except String PagerState :=
  match biggestMaterialised st.cache with
  | none => .error "At least one page shouldn't be empty"
  | some b =>
    .ok { st with file :=
      { writeLoop st.cache
          (if st.numPages ≤ b then
            st.file.setLen ((b - st.numPages + 1) * PAGE_SIZE)
          else st.file)
          (List.range (b + 1)) with synced := true } }

/-! ## Helper lemmas about the shifting loop -/

theorem shiftRightFrom_length {C : Type} (dflt : C) :
    ∀ (k : Nat) (a : List C) (index : Nat),
      (shiftRightFrom dflt a index k).length = a.length := by
  intro k
  induction k with
  | zero => intro a index; rfl
  | succ k ih =>
    intro a index
    simp only [shiftRightFrom, ih, List.length_set]

theorem insertAtIdx_length {C : Type} (dflt : C) (cells : List C) (index : Nat) (c : C) :
    (insertAtIdx dflt cells index c).length = cells.length + 1 := by
  unfold insertAtIdx
  by_cases h : index < cells.length
  · simp [h, shiftRightFrom_length, List.length_set]
  · simp [h, List.length_set]

theorem shiftRightFrom_getElem? {C : Type} (dflt : C) :
    ∀ (k : Nat) (a : List C) (index : Nat), index + k < a.length →
      ∀ (j : Nat),
        (shiftRightFrom dflt a index k)[j]? =
          if j ≤ index then a[j]?
          else if j ≤ index + k then a[j - 1]?
          else a[j]? := by
  intro k
  induction k with
  | zero =>
    intro a index _ j
    simp only [shiftRightFrom]
    by_cases h1 : j ≤ index
    · simp [h1]
    · simp [h1, Nat.lt_of_not_le h1, show ¬ j ≤ index + 0 from by omega]
  | succ k ih =>
    intro a index hlen j
    have hset : index + k < (a.set (index + k + 1) (a.getD (index + k) dflt)).length := by
      simp only [List.length_set]; omega
    simp only [shiftRightFrom]
    rw [ih _ _ hset j]
    by_cases h1 : j ≤ index
    · rw [if_pos h1, if_pos h1, List.getElem?_set,
        if_neg (show ¬ index + k + 1 = j from by omega)]
    · rw [if_neg h1, if_neg h1]
      by_cases h2 : j ≤ index + k
      · rw [if_pos h2, if_pos (show j ≤ index + (k + 1) from by omega), List.getElem?_set,
          if_neg (show ¬ index + k + 1 = j - 1 from by omega)]
      · rw [if_neg h2]
        by_cases h3 : j = index + k + 1
        · subst h3
          rw [if_pos (show index + k + 1 ≤ index + (k + 1) from by omega),
            List.getElem?_set, if_pos rfl, if_pos (by omega : index + k + 1 < a.length)]
          have hk : index + k < a.length := by omega
          rw [List.getD_eq_getElem?_getD, List.getElem?_eq_getElem hk]
          simp
        · rw [if_neg (show ¬ j ≤ index + (k + 1) from by omega), List.getElem?_set,
            if_neg (show ¬ index + k + 1 = j from by omega)]

theorem insertAtIdx_getElem? {C : Type} (dflt : C) (cells : List C) (index : Nat) (c : C)
    (hidx : index ≤ cells.length) :
    ∀ (j : Nat),
      (insertAtIdx dflt cells index c)[j]? =
        if j < index then cells[j]?
        else if j = index then some c
        else if j ≤ cells.length then cells[j - 1]?
        else none := by
  intro j
  unfold insertAtIdx
  by_cases h : index < cells.length
  · simp only [if_pos h]
    have hlen : index + (cells.length - index) < (cells ++ [dflt]).length := by
      simp only [List.length_append, List.length_singleton]; omega
    have hslen : (shiftRightFrom dflt (cells ++ [dflt]) index (cells.length - index)).length
        = cells.length + 1 := by
      rw [shiftRightFrom_length]
      simp
    rw [List.getElem?_set, hslen]
    by_cases h2 : j = index
    · subst h2
      rw [if_pos rfl, if_pos (show j < cells.length + 1 from by omega),
        if_neg (show ¬ j < j from by omega), if_pos rfl]
    · rw [if_neg (show ¬ index = j from fun hh => h2 hh.symm),
        shiftRightFrom_getElem? dflt _ _ _ hlen j]
      by_cases h1 : j < index
      · rw [if_pos (show j ≤ index from by omega), if_pos h1, List.getElem?_append,
          if_pos (show j < cells.length from by omega)]
      · rw [if_neg (show ¬ j ≤ index from by omega), if_neg h1,
          if_neg (show ¬ j = index from h2)]
        by_cases h3 : j ≤ cells.length
        · rw [if_pos (show j ≤ index + (cells.length - index) from by omega), if_pos h3,
            List.getElem?_append, if_pos (show j - 1 < cells.length from by omega)]
        · rw [if_neg (show ¬ j ≤ index + (cells.length - index) from by omega), if_neg h3,
            List.getElem?_append, if_neg (show ¬ j < cells.length from by omega)]
          rw [List.getElem?_eq_none (by simp only [List.length_singleton]; omega)]
  · have hidx' : index = cells.length := by omega
    subst hidx'
    simp only [if_neg h]
    rw [List.getElem?_set]
    simp only [List.length_append, List.length_singleton]
    by_cases h2 : j = cells.length
    · subst h2
      rw [if_pos rfl, if_pos (show cells.length < cells.length + 1 from by omega),
        if_neg (show ¬ cells.length < cells.length from by omega), if_pos rfl]
    · rw [if_neg (show ¬ cells.length = j from fun hh => h2 hh.symm)]
      by_cases h1 : j < cells.length
      · rw [if_pos h1, List.getElem?_append, if_pos h1]
      · rw [if_neg h1, if_neg h2, if_neg (show ¬ j ≤ cells.length from by omega),
          List.getElem?_append, if_neg h1,
          List.getElem?_eq_none (by simp only [List.length_singleton]; omega)]

/-! ## Helper lemmas about the internal-node binary search -/

theorem sorted_getD_lt {ks : List Nat} (hs : List.Pairwise (· < ·) ks) {i j : Nat}
    (hij : i < j) (hj : j < ks.length) : ks.getD i 0 < ks.getD j 0 := by
  rw [List.getD_eq_getElem?_getD, List.getD_eq_getElem?_getD,
    List.getElem?_eq_getElem (Nat.lt_trans hij hj), List.getElem?_eq_getElem hj]
  exact List.pairwise_iff_getElem.1 hs i j (Nat.lt_trans hij hj) hj hij

/-- Postcondition of `InternalNodeHeader::find_index`'s binary search:
given enough fuel, wherever it stops, every key strictly below the result
is at most the search key and every key from the result on is strictly
greater. -/
theorem internalFindIndexAux_spec (ks : List Nat) (key : Nat)
    (hs : List.Pairwise (· < ·) ks) :
    ∀ (fuel lo hi : Nat), hi - lo ≤ fuel → hi ≤ ks.length → lo ≤ hi →
    (∀ i, i < lo → ks.getD i 0 ≤ key) →
    (∀ i, hi ≤ i → i < ks.length → key < ks.getD i 0) →
    lo ≤ internalFindIndexAux ks key fuel lo hi ∧
    internalFindIndexAux ks key fuel lo hi ≤ hi ∧
    (∀ i, i < internalFindIndexAux ks key fuel lo hi → ks.getD i 0 ≤ key) ∧
    (∀ i, internalFindIndexAux ks key fuel lo hi ≤ i → i < ks.length →
      key < ks.getD i 0) := by
  intro fuel
  induction fuel with
  | zero =>
    intro lo hi hfuel hhi hlohi hlow hhigh
    have : hi = lo := by omega
    subst this
    exact ⟨Nat.le_refl _, Nat.le_refl _, hlow, fun i hi' hilen => hhigh i hi' hilen⟩
  | succ fuel ih =>
    intro lo hi hfuel hhi hlohi hlow hhigh
    by_cases hlt : lo < hi
    · simp only [internalFindIndexAux, if_pos hlt]
      set mid := (lo + hi) / 2 with hmd
      have hmid : mid < ks.length := by omega
      by_cases heq : ks.getD mid 0 = key
      · simp only [if_pos heq]
        refine ⟨by omega, by omega, ?_, ?_⟩
        · intro i hi'
          rcases Nat.lt_or_ge i mid with hc | hc
          · exact Nat.le_of_lt (heq ▸ sorted_getD_lt hs hc hmid)
          · have : i = mid := by omega
            subst this
            exact Nat.le_of_eq heq
        · intro i hi' hilen
          have : mid < i := by omega
          calc key = ks.getD mid 0 := heq.symm
            _ < ks.getD i 0 := sorted_getD_lt hs this hilen
      · simp only [if_neg heq]
        by_cases hltk : key < ks.getD mid 0
        · simp only [if_pos hltk]
          have post := ih lo mid (by omega) (by omega) (by omega) hlow ?_
          · exact ⟨by omega, by omega, post.2.2.1, post.2.2.2⟩
          · intro i hi' hilen
            rcases Nat.eq_or_lt_of_le hi' with hc | hc
            · exact hc ▸ hltk
            · exact Nat.lt_trans hltk (sorted_getD_lt hs hc hilen)
        · simp only [if_neg hltk]
          have hkey : ks.getD mid 0 < key := by omega
          have post := ih (mid + 1) hi (by omega) hhi (by omega) ?_ hhigh
          · exact ⟨by omega, by omega, post.2.2.1, post.2.2.2⟩
          · intro i hi'
            rcases Nat.lt_or_ge i mid with hc | hc
            · exact Nat.le_of_lt (Nat.lt_trans (sorted_getD_lt hs hc hmid) hkey)
            · have : i = mid := by omega
              subst this
              exact Nat.le_of_lt hkey
    · simp only [internalFindIndexAux, if_neg hlt]
      have : hi = lo := by omega
      subst this
      exact ⟨Nat.le_refl _, Nat.le_refl _, hlow, fun i hi' hilen => hhigh i hi' hilen⟩

/-! ## Helper lemmas about the flush write loop -/

theorem writeLoop_cons_none (cache : List (Option PageC)) (f : DiskFile) (j : Nat)
    (rest : List Nat) (hj : cache.getD j none = none) :
    writeLoop cache f (j :: rest) = writeLoop cache f rest := by
  simp only [writeLoop, List.foldl_cons, hj]

theorem writeLoop_cons_some (cache : List (Option PageC)) (f : DiskFile) (j : Nat)
    (rest : List Nat) (p : PageC) (hj : cache.getD j none = some p) :
    writeLoop cache f (j :: rest) = writeLoop cache (f.writePageAt j p) rest := by
  simp only [writeLoop, List.foldl_cons, hj]

theorem writeLoop_len_mono (cache : List (Option PageC)) :
    ∀ (idxs : List Nat) (f : DiskFile), f.len ≤ (writeLoop cache f idxs).len := by
  intro idxs
  induction idxs with
  | nil => intro f; exact Nat.le_refl _
  | cons j rest ih =>
    intro f
    simp only [writeLoop, List.foldl_cons]
    cases hj : cache.getD j none with
    | none => exact ih f
    | some p =>
      refine Nat.le_trans ?_ (ih (f.writePageAt j p))
      simp only [DiskFile.writePageAt]
      omega

theorem writeLoop_len_le (cache : List (Option PageC)) (N : Nat) :
    ∀ (idxs : List Nat) (f : DiskFile), (∀ i, i ∈ idxs → (i + 1) * PAGE_SIZE ≤ N) →
      f.len ≤ N → (writeLoop cache f idxs).len ≤ N := by
  intro idxs
  induction idxs with
  | nil => intro f _ hf; exact hf
  | cons j rest ih =>
    intro f hmem hf
    simp only [writeLoop, List.foldl_cons]
    cases hj : cache.getD j none with
    | none => exact ih f (fun i hi => hmem i (List.mem_cons_of_mem j hi)) hf
    | some p =>
      refine ih _ (fun i hi => hmem i (List.mem_cons_of_mem j hi)) ?_
      simp only [DiskFile.writePageAt]
      have := hmem j (List.mem_cons_self j rest)
      omega

theorem writeLoop_len_ge (cache : List (Option PageC)) :
    ∀ (idxs : List Nat) (f : DiskFile) (i : Nat) (p : PageC), i ∈ idxs →
      cache.getD i none = some p → (i + 1) * PAGE_SIZE ≤ (writeLoop cache f idxs).len := by
  intro idxs
  induction idxs with
  | nil => intro f i p hmem; exact absurd hmem (List.not_mem_nil i)
  | cons j rest ih =>
    intro f i p hmem hc
    simp only [writeLoop, List.foldl_cons]
    rcases List.mem_cons.1 hmem with hj | hrest
    · subst hj
      rw [hc]
      refine Nat.le_trans ?_ (writeLoop_len_mono cache rest _)
      simp only [DiskFile.writePageAt]
      omega
    · cases hj : cache.getD j none with
      | none => exact ih f i p hrest hc
      | some q => exact ih _ i p hrest hc

theorem find?_filter_of_imp {α : Type} (l : List α) (p q : α → Bool)
    (h : ∀ x, p x = true → q x = true) :
    List.find? p (l.filter q) = List.find? p l := by
  induction l with
  | nil => rfl
  | cons a rest ih =>
    by_cases hq : q a = true
    · rw [List.filter_cons_of_pos hq, List.find?_cons, List.find?_cons]
      cases hp : p a <;> simp [hp, ih]
    · rw [List.filter_cons_of_neg (by simpa using hq), List.find?_cons]
      cases hp : p a
      · simp [ih]
      · exact absurd (h a hp) hq

theorem readPage_writePageAt_self (f : DiskFile) (i : Nat) (p : PageC) :
    (f.writePageAt i p).readPage i = some p := by
  simp [DiskFile.readPage, DiskFile.writePageAt, List.find?_cons]

theorem readPage_writePageAt_other (f : DiskFile) (i j : Nat) (p : PageC) (hij : i ≠ j) :
    (f.writePageAt j p).readPage i = f.readPage i := by
  simp only [DiskFile.readPage, DiskFile.writePageAt, List.find?_cons]
  have hji : ((j, p).1 == i) = false := by
    simp only [beq_eq_false_iff_ne]
    exact fun hc => hij hc.symm
  rw [hji]
  congr 1
  refine find?_filter_of_imp _ _ _ fun x hx => ?_
  have hxi : x.1 = i := by simpa using hx
  rw [hxi]
  simp only [Bool.not_eq_true', beq_eq_false_iff_ne]
  exact hij

theorem writeLoop_read_notmem (cache : List (Option PageC)) :
    ∀ (idxs : List Nat) (f : DiskFile) (i : Nat), i ∉ idxs →
      (writeLoop cache f idxs).readPage i = f.readPage i := by
  intro idxs
  induction idxs with
  | nil => intro f i _; rfl
  | cons j rest ih =>
    intro f i hmem
    have hij : i ≠ j := fun hc => hmem (hc ▸ List.mem_cons_self j rest)
    have hrest : i ∉ rest := fun hc => hmem (List.mem_cons_of_mem j hc)
    cases hj : cache.getD j none with
    | none =>
      rw [writeLoop_cons_none cache f j rest hj]
      exact ih f i hrest
    | some p =>
      rw [writeLoop_cons_some cache f j rest p hj]
      exact (ih (f.writePageAt j p) i hrest).trans
        (readPage_writePageAt_other f i j p hij)

theorem writeLoop_read_mem (cache : List (Option PageC)) :
    ∀ (idxs : List Nat) (f : DiskFile) (i : Nat) (p : PageC), idxs.Nodup → i ∈ idxs →
      cache.getD i none = some p → (writeLoop cache f idxs).readPage i = some p := by
  intro idxs
  induction idxs with
  | nil => intro f i p _ hmem; exact absurd hmem (List.not_mem_nil i)
  | cons j rest ih =>
    intro f i p hnd hmem hc
    have hnd' := List.nodup_cons.1 hnd
    rcases List.mem_cons.1 hmem with hj | hrest
    · subst hj
      rw [writeLoop_cons_some cache f i rest p hc,
        writeLoop_read_notmem cache rest _ i hnd'.1,
        readPage_writePageAt_self]
    · cases hj : cache.getD j none with
      | none =>
        rw [writeLoop_cons_none cache f j rest hj]
        exact ih f i p hnd'.2 hrest hc
      | some q =>
        rw [writeLoop_cons_some cache f j rest q hj]
        exact ih (f.writePageAt j q) i p hnd'.2 hrest hc

/-! ## The claims -/

/-- C1: the extractor-correctness equation `P(r) == (extracted_range(P)
.contains(r.key) ∧ residual(P)(r))` fails on the code.  For the predicate
`id = 5` on a row whose primary key is 6, the predicate evaluates to
false, yet extraction removes the whole expression (residual vacuously
true) and the extracted `Range` `[Value 5]` reports 6 as contained,
because the shadowed binding in `value_past_start`/`value_before_end`
makes `Value(v).contains` reflexively true for every probe.  The equation
also fails independently of that slip: for `b = 2 OR id > 3` on a row
with key 5 and `b = 7` the predicate is true, but extraction leaves the
residual `b = 2` in conjunctive position (the `Or` branch keeps only the
non-indexed side), so the right-hand side is false. -/
theorem claim_c1_extractor_bug :
    evalOnRow (.binary "id" 5 .equals) (fun _ => 6) = some false ∧
    ((Expr.binary "id" 5 .equals).extractIndexE "id").2.2 = true ∧
    rangeContains ((Expr.binary "id" 5 .equals).extractIndexE "id").2.1 6 = true ∧
    ¬ extractorClaim (.binary "id" 5 .equals) "id" (fun _ => 6) ∧
    ¬ extractorClaim (.or (.binary "b" 2 .equals) (.binary "id" 3 .moreThan)) "id"
      (fun f => if f = "id" then 5 else 7) := by
  refine ⟨rfl, rfl, rfl, ?_, ?_⟩
  · intro h
    unfold extractorClaim at h
    exact absurd h (by decide)
  · intro h
    unfold extractorClaim at h
    exact absurd h (by decide)

/-- The insert sequence refuting round-trip (C2), ordered scan (C3) and
duplicate rejection (C4) at `max_leaf_cells = 4`: fill the root leaf with
10, 20, 30, 40; 45 forces the root-leaf split; 12 and 14 refill the left
leaf; 16 forces the first non-rootleaf split, whose `(split_key, new_leaf)`
pair lands at an interior index of the root and is written with the new
right leaf in place of the old left child. -/
def c2InsertSeq : List (Nat × Val) :=
  [(10, 10), (20, 20), (30, 30), (40, 40), (45, 45), (12, 12), (14, 14), (16, 16)]

/-- C2: round-trip fails.  `max_leaf_cells = 4` is realised by a record of
aligned size 232 bytes; all keys lie in `[0, 10·4·62]`.  Every insert of
`c2InsertSeq` succeeds, yet `find(16)` — a key just inserted — returns
KeyNotFound: the interior branch of `InternalNodeHeader::insert` writes
`(split_key, new_leaf)` where the shifted old child should keep its cell,
swapping the two children's key ranges. -/
theorem claim_c2_roundtrip_bug :
    leafMaxCells 232 = 4 ∧
    (insertAll (freshTable 4) c2InsertSeq).isOk = true ∧
    (insertAll (freshTable 4) c2InsertSeq).bind (fun t => findVal t 16)
      = .error "Key not found" :=
  ⟨rfl, rfl, rfl⟩

/-- C3: the forward scan from `find_cursor(0)` over the tree built by
`c2InsertSeq` visits `[14, 16, 20, 30, 40, 45]` and signals the end — the
successfully inserted keys 10 and 12 are never visited, refuting "visits
every key of S". -/
theorem claim_c3_scan_bug :
    (insertAll (freshTable 4) c2InsertSeq).bind (fun t => scanTable t 100)
      = .ok [14, 16, 20, 30, 40, 45] ∧
    10 ∈ c2InsertSeq.map Prod.fst ∧
    ¬ 10 ∈ [14, 16, 20, 30, 40, 45] :=
  ⟨rfl, by decide, by decide⟩

/-- C4: duplicate rejection fails.  Key 10 is present (its insert in
`c2InsertSeq` succeeded), yet a second `insert(10, 99)` returns Ok instead
of DuplicateKey and mutates the tree: `find_cursor(10)` descends into the
mis-keyed right leaf, finds `14 ≠ 10` at the cursor, and inserts a second
cell with key 10. -/
theorem claim_c4_duplicate_bug :
    (insertAll (freshTable 4) c2InsertSeq).isOk = true ∧
    ((insertAll (freshTable 4) c2InsertSeq).bind (fun t => insertT t 10 99)).isOk
      = true ∧
    ((insertAll (freshTable 4) c2InsertSeq).bind (fun t => insertT t 10 99)).toOption
      ≠ (insertAll (freshTable 4) c2InsertSeq).toOption :=
  ⟨rfl, rfl, by decide⟩

/-- C5: Range-level union does not distribute across the disjunction.
`Range([Value 5]).union(Range([[10,20]]))` merges the two members — the
spuriously-true `Value` contains makes them "overlap" — into `[[5, 20]]`:
3 is contained in the left operand (`Value(5).contains(3)` is true under
the code's contains, and under interval semantics 7 lies in the merged
result though in neither operand), but the union result no longer
contains 3. -/
theorem claim_c5_range_union_bug :
    rangeUnion [SimpleRange.value 5] [SimpleRange.values (.closed 10) (.closed 20)]
      = [SimpleRange.values (.closed 5) (.closed 20)] ∧
    (SimpleRange.value 5).contains 3 = true ∧
    (SimpleRange.values (.closed 5) (.closed 20)).contains 3 = false ∧
    (SimpleRange.values (.closed 5) (.closed 20)).contains 7 = true ∧
    (SimpleRange.value 5).contains 7 = true ∧
    (SimpleRange.values (.closed 10) (.closed 20)).contains 7 = false := by
  decide

/-- Keys of an internal node's cell list. -/
theorem mapFst_getD (cells : List InternalCell) (i : Nat) (h : i < cells.length) :
    (cells.map Prod.fst).getD i 0 = (cells.getD i (0, 0)).1 := by
  rw [List.getD_eq_getElem?_getD, List.getD_eq_getElem?_getD,
    List.getElem?_eq_getElem (by simpa using h), List.getElem?_eq_getElem h,
    List.getElem_map]
  rfl

/-- C6: for an internal node with strictly sorted keys,
`find_index(key)` returns `i + 1` when `cell[i].key = key` (routing
right), the index of the first cell whose key is `≥` (strictly greater
than) the search key when the key is absent, and `num_keys` when the key
exceeds every stored key. -/
theorem claim_c6_find_index (cells : List InternalCell) (key : Nat)
    (hs : List.Pairwise (· < ·) (cells.map Prod.fst)) :
    (∀ i, i < cells.length → (cells.getD i (0, 0)).1 = key →
      internalFindIndex cells key = i + 1) ∧
    ((∀ i, i < cells.length → (cells.getD i (0, 0)).1 ≠ key) →
      internalFindIndex cells key ≤ cells.length ∧
      (∀ i, i < internalFindIndex cells key → (cells.getD i (0, 0)).1 < key) ∧
      (∀ i, internalFindIndex cells key ≤ i → i < cells.length →
        key < (cells.getD i (0, 0)).1)) ∧
    ((∀ i, i < cells.length → (cells.getD i (0, 0)).1 < key) →
      internalFindIndex cells key = cells.length) := by
  have hkl : (cells.map Prod.fst).length = cells.length := by simp
  obtain ⟨hge0, hle, hlow, hhigh⟩ :=
    internalFindIndexAux_spec (cells.map Prod.fst) key hs cells.length 0 cells.length
      (by omega) (by omega) (by omega)
      (fun i h => absurd h (by omega))
      (fun i h1 h2 => absurd (Nat.lt_of_le_of_lt h1 (by omega)) (Nat.lt_irrefl _))
  have hr : internalFindIndexAux (cells.map Prod.fst) key cells.length 0 cells.length
      = internalFindIndex cells key := rfl
  rw [hr] at hge0 hle hlow hhigh
  refine ⟨?_, ?_, ?_⟩
  · intro i hi' heq
    have hks : (cells.map Prod.fst).getD i 0 = key := by
      rw [mapFst_getD cells i hi']; exact heq
    have hir : i < internalFindIndex cells key := by
      by_contra hc
      have := hhigh i (by omega) (by omega)
      rw [hks] at this
      omega
    by_contra hc
    have hlt : i + 1 < internalFindIndex cells key := by omega
    have h1 : (cells.map Prod.fst).getD (i + 1) 0 ≤ key := hlow (i + 1) hlt
    have h2 : (cells.map Prod.fst).getD i 0 < (cells.map Prod.fst).getD (i + 1) 0 :=
      sorted_getD_lt hs (by omega) (by omega)
    rw [hks] at h2
    omega
  · intro habs
    refine ⟨hle, ?_, ?_⟩
    · intro i hir
      have h1 := hlow i hir
      have hi' : i < cells.length := by omega
      rw [mapFst_getD cells i hi'] at h1
      have := habs i hi'
      omega
    · intro i h1 h2
      have := hhigh i h1 (by omega)
      rw [mapFst_getD cells i h2] at this
      exact this
  · intro hall
    by_contra hc
    have hrlt : internalFindIndex cells key < cells.length := by omega
    have h1 := hhigh (internalFindIndex cells key) (Nat.le_refl _) (by omega)
    rw [mapFst_getD cells _ hrlt] at h1
    have := hall _ hrlt
    omega

/-- Witness for C6: on the sorted internal node `[3, 5, 9]`, searching the
present key 5 yields index 2 (exact match routes right), and searching 10,
which exceeds every key, yields `num_keys = 3`. -/
theorem claim_c6_find_index_witness :
    internalFindIndex [(3, 100), (5, 101), (9, 102)] 5 = 2 ∧
    internalFindIndex [(3, 100), (5, 101), (9, 102)] 10 = 3 := by
  have h5 := claim_c6_find_index [(3, 100), (5, 101), (9, 102)] 5 (by decide)
  have h10 := claim_c6_find_index [(3, 100), (5, 101), (9, 102)] 10 (by decide)
  exact ⟨h5.1 1 (by decide) (by decide), h10.2.2 (by decide)⟩

/-- C7: for a leaf with `num_cells < max_leaf_cells` and an index in
`[0, num_cells]`, `insert_at_index` keeps cells below the index, writes
the new `(key, value)` cell at the index, moves each cell previously at
position `i ∈ [index, num_cells)` to `i + 1` unchanged, and the cell
count grows by one. -/
theorem claim_c7_insert_at (maxCells : Nat) (cells : List LeafCell) (index key : Nat)
    (v : Val) (hmax : cells.length < maxCells) (hidx : index ≤ cells.length) :
    (insertAtIdx (0, 0) cells index (key, v)).length = cells.length + 1 ∧
    (∀ i, i < index →
      (insertAtIdx (0, 0) cells index (key, v)).getD i (0, 0) = cells.getD i (0, 0)) ∧
    (insertAtIdx (0, 0) cells index (key, v)).getD index (0, 0) = (key, v) ∧
    (∀ i, index ≤ i → i < cells.length →
      (insertAtIdx (0, 0) cells index (key, v)).getD (i + 1) (0, 0)
        = cells.getD i (0, 0)) := by
  have hg := insertAtIdx_getElem? (0, 0) cells index (key, v) hidx
  refine ⟨insertAtIdx_length _ _ _ _, ?_, ?_, ?_⟩
  · intro i hi
    rw [List.getD_eq_getElem?_getD, List.getD_eq_getElem?_getD, hg i, if_pos hi]
  · rw [List.getD_eq_getElem?_getD, hg index, if_neg (Nat.lt_irrefl index), if_pos rfl]
    rfl
  · intro i h1 h2
    rw [List.getD_eq_getElem?_getD, List.getD_eq_getElem?_getD, hg (i + 1),
      if_neg (by omega), if_neg (by omega), if_pos (by omega)]
    simp

/-- Witness for C7 on the leaf `[(1,10), (3,30), (5,50)]` at index 1. -/
theorem claim_c7_insert_at_witness :
    (insertAtIdx (0, 0) [(1, 10), (3, 30), (5, 50)] 1 ((2 : Nat), (20 : Val))).length = 4 ∧
    (insertAtIdx (0, 0) [(1, 10), (3, 30), (5, 50)] 1 ((2 : Nat), (20 : Val))).getD 1 (0, 0)
      = (2, 20) ∧
    (insertAtIdx (0, 0) [(1, 10), (3, 30), (5, 50)] 1 ((2 : Nat), (20 : Val))).getD 2 (0, 0)
      = (3, 30) :=
  have h := claim_c7_insert_at 4 [(1, 10), (3, 30), (5, 50)] 1 2 20 (by decide) (by decide)
  ⟨h.1, h.2.2.1, h.2.2.2 1 (by decide) (by decide)⟩

/-- Counterexample for C8: a pager opened on a two-page file with only
page 0 materialised.  `flush` succeeds but the file keeps its 2048-byte
length, not `PAGE_SIZE · (highest_materialised_page_index + 1) = 1024`:
the `set_len` call is skipped whenever the highest materialised index is
below the on-disk page count, and nothing truncates the file. -/
theorem claim_c8_counterexample :
    biggestMaterialised [some 7] = some 0 ∧
    (pagerFlush
        { numPages := 2, cache := [some 7],
          file := { len := 2048, data := [(0, 3), (1, 4)], synced := true } }).map
      (fun s => s.file.len) = .ok 2048 ∧
    2048 ≠ PAGE_SIZE * (0 + 1) :=
  ⟨rfl, rfl, by decide⟩

/-- C8 (amended): whenever the highest materialised page index `b` is at
least the on-disk page count from open time — in particular on any freshly
created file — `flush` succeeds, writes every cached page at offset
`page_index · PAGE_SIZE`, fsyncs, and leaves the file at exactly
`PAGE_SIZE · (b + 1)` bytes. -/
theorem claim_c8_flush (st : PagerState) (b : Nat)
    (hb : biggestMaterialised st.cache = some b) (hge : st.numPages ≤ b) :
    ∃ st', pagerFlush st = .ok st' ∧
      st'.file.len = PAGE_SIZE * (b + 1) ∧
      st'.file.synced = true ∧
      ∀ i p, i ≤ b → st.cache.getD i none = some p →
        st'.file.readPage i = some p := by
  have hbsome : (st.cache.getD b none).isSome = true := by
    have h0 := List.find?_some hb
    simpa using h0
  obtain ⟨pb, hpb⟩ := Option.isSome_iff_exists.1 hbsome
  have hflush : pagerFlush st = .ok { st with file :=
      { writeLoop st.cache
          (st.file.setLen ((b - st.numPages + 1) * PAGE_SIZE))
          (List.range (b + 1)) with synced := true } } := by
    simp only [pagerFlush, hb, if_pos hge]
  refine ⟨_, hflush, ?_, rfl, ?_⟩
  · have hub : (writeLoop st.cache
        (st.file.setLen ((b - st.numPages + 1) * PAGE_SIZE))
        (List.range (b + 1))).len ≤ (b + 1) * PAGE_SIZE := by
      refine writeLoop_len_le st.cache _ _ _ ?_ ?_
      · intro i hi
        have hib : i < b + 1 := List.mem_range.1 hi
        exact Nat.mul_le_mul_right _ (by omega)
      · exact Nat.mul_le_mul_right _ (by omega)
    have hlb : (b + 1) * PAGE_SIZE ≤ (writeLoop st.cache
        (st.file.setLen ((b - st.numPages + 1) * PAGE_SIZE))
        (List.range (b + 1))).len :=
      writeLoop_len_ge st.cache _ _ b pb (List.mem_range.2 (by omega)) hpb
    show (writeLoop st.cache _ _).len = PAGE_SIZE * (b + 1)
    rw [Nat.mul_comm PAGE_SIZE (b + 1)]
    omega
  · intro i p hib hc
    show (writeLoop st.cache _ _).readPage i = some p
    exact writeLoop_read_mem st.cache _ _ i p (List.nodup_range _)
      (List.mem_range.2 (by omega)) hc

/-- Witness for C8 (amended): flushing a fresh one-page pager yields a
1024-byte file holding the cached page. -/
theorem claim_c8_flush_witness :
    ∃ st', pagerFlush
        { numPages := 0, cache := [some 7],
          file := { len := 0, data := [], synced := false } } = .ok st' ∧
      st'.file.len = PAGE_SIZE * (0 + 1) ∧
      st'.file.synced = true ∧
      ∀ i p, i ≤ 0 →
        (({ numPages := 0, cache := [some 7],
            file := { len := 0, data := [], synced := false } } : PagerState)).cache.getD
          i none = some p →
        st'.file.readPage i = some p :=
  claim_c8_flush
    { numPages := 0, cache := [some 7],
      file := { len := 0, data := [], synced := false } } 0 (by decide) (by decide)

/-- The insert sequence for the C9 counterexample: fill a
`max_leaf_cells = 7` root leaf with 1..7, then insert 0, which goes into
the left half of the split. -/
def c9InsertSeq : List (Nat × Val) :=
  [(1, 1), (2, 2), (3, 3), (4, 4), (5, 5), (6, 6), (7, 7), (0, 0)]

/-- Counterexample for C9: with `max_leaf_cells = 7` (realised by a record
of aligned size 128 bytes), the root-leaf split triggered by inserting 0
leaves the new right leaf — a non-root leaf (its parent is page 2) — with
only 3 cells, strictly below `split_count(7) = ceil(7/2) = 4`. -/
theorem claim_c9_counterexample :
    leafMaxCells 128 = 7 ∧
    insertAll (freshTable 7) c9InsertSeq = .ok
      { pages := [none,
          some (.leaf 2 [(0, 0), (1, 1), (2, 2), (3, 3), (4, 4)]),
          some (.internal 0 [(5, 1)] 3),
          some (.leaf 2 [(5, 5), (6, 6), (7, 7)])],
        root := 2, maxLeafCells := 7 } ∧
    ¬ 4 ≤ 3 ∧ splitCount 7 = 4 :=
  ⟨rfl, rfl, by decide, rfl⟩

/-- C9 (amended): `split_count(max) = ceil(max/2)`; the left (original)
leaf retains `split_count` of the original cells before the new record is
placed, and after the record is placed the left leaf holds at least
`ceil(max/2)` cells and the right leaf at least `floor(max/2)` cells. -/
theorem claim_c9_split (M : Nat) (cells : List LeafCell) (cellNum key : Nat) (v : Val)
    (hlen : cells.length = M) (hM : 2 ≤ M) :
    splitCount M = M - M / 2 ∧
    (cells.take (splitCount M)).length = splitCount M ∧
    splitCount M ≤ (leafSplit cells cellNum key v M).1.length ∧
    M / 2 ≤ (leafSplit cells cellNum key v M).2.1.length := by
  have hsc : splitCount M = (M + 1) / 2 := rfl
  refine ⟨by omega, ?_, ?_, ?_⟩
  · rw [List.length_take]
    omega
  · unfold leafSplit
    by_cases hc : cellNum < splitCount M
    · simp only [if_pos hc]
      rw [insertAtIdx_length, List.length_take]
      omega
    · simp only [if_neg hc]
      rw [List.length_take]
      omega
  · unfold leafSplit
    by_cases hc : cellNum < splitCount M
    · simp only [if_pos hc]
      rw [List.length_drop]
      omega
    · simp only [if_neg hc]
      rw [insertAtIdx_length, List.length_drop]
      omega

/-- Witness for C9 (amended) on a full leaf of 4 cells split with the new
record going left. -/
theorem claim_c9_split_witness :
    splitCount 4 = 4 - 4 / 2 ∧
    (([(10, 10), (20, 20), (30, 30), (40, 40)] : List LeafCell).take
      (splitCount 4)).length = splitCount 4 ∧
    splitCount 4 ≤
      (leafSplit [(10, 10), (20, 20), (30, 30), (40, 40)] 0 5 5 4).1.length ∧
    4 / 2 ≤ (leafSplit [(10, 10), (20, 20), (30, 30), (40, 40)] 0 5 5 4).2.1.length :=
  claim_c9_split 4 [(10, 10), (20, 20), (30, 30), (40, 40)] 0 5 5 rfl (by decide)

/-- C10: `Value(v)` reports every probe as past its start and before its
end — `contains` is true for every `x`, including `x ≠ v` — and a
filtering cursor driven by the equality-extracted range `[Value 5]` on a
table with keys 0..10 emits the rows keyed 5 through 10 (keys differing
from 5 included) with the residual fully removed. -/
theorem claim_c10_value_contains :
    (∀ v x : Nat, SimpleRange.valuePastStart (.value v) x = true ∧
      SimpleRange.valueBeforeEnd (.value v) x = true ∧
      SimpleRange.contains (.value v) x = true) ∧
    ((Expr.binary "id" 5 .equals).extractIndexE "id").2.1 = [.value 5] ∧
    ((Expr.binary "id" 5 .equals).extractIndexE "id").2.2 = true ∧
    (insertAll (freshTable 62) ((List.range 11).map fun i => (i, i))).bind
      (fun t => filterRun t (.binary "id" 5 .equals) "id"
        (fun f k v => if f = "id" then k else v) 0 1000000 100)
      = .ok [(5, 5), (6, 6), (7, 7), (8, 8), (9, 9), (10, 10)] := by
  refine ⟨?_, rfl, rfl, rfl⟩
  intro v x
  have hc : compare v v = Ordering.eq := Nat.compare_eq_eq.2 rfl
  refine ⟨?_, ?_, ?_⟩
  · simp [SimpleRange.valuePastStart, hc]
  · simp [SimpleRange.valueBeforeEnd, hc]
  · simp [SimpleRange.contains, SimpleRange.valuePastStart, SimpleRange.valueBeforeEnd, hc]

end RustDB
